import Mathlib

/-!
Shallow embedding of the dodopow proof-of-work core (src/lib.rs):
random bipartite graph generation, cycle search (adjacency construction,
two pruning passes, depth-bounded iterative DFS) and cycle verification,
together with proofs about these operations.

Modelling conventions: machine integers (u32, usize) are Nat; Rust panics
(assertion failure, remainder by zero, out-of-bounds indexing) are the
error case of Except Unit; the FnMut search handler is an explicit
state-passing function of type s -> List Nat -> Bool x s; the DFS worklist
loop is given an explicit fuel argument which the solver instantiates with
a provably sufficient potential bound, so that the embedded solver is a
total computable function agreeing with the source's unbounded loop.
-/

/-- Read of an adjacency array at an index, none when out of bounds
(the Rust code's slice indexing panics in that case). -/
def adjGet? : List (List Nat) → Nat → Option (List Nat)
  | [], _ => none
  | l :: _, 0 => some l
  | _ :: rest, i + 1 => adjGet? rest i

/-- Total read of an adjacency array, empty list when out of bounds. -/
def adjGet (arr : List (List Nat)) (i : Nat) : List Nat :=
  (adjGet? arr i).getD []

/-- Total read of a vertex sequence, 0 when out of bounds (the Rust
verifier only ever indexes in bounds). -/
def cyGet : List Nat → Nat → Nat
  | [], _ => 0
  | x :: _, 0 => x
  | _ :: rest, i + 1 => cyGet rest i

/-- DodoPoW graph storage: `pub struct Graph(Box<[(u32, u32)]>)`. -/
structure Graph where
  edges : List (Nat × Nat)
deriving DecidableEq

/-- `Graph::new`: draw two 32-bit words per edge and reduce them modulo
`edges_number as u32`. The assertion `n <= 32` and the remainder-by-zero
panic (which fires when `edges_number as u32` is `2^32 mod 2^32 = 0`,
i.e. at `n = 32`) are modelled as the error case. The PRNG is modelled as
a stream of words; draw `i` is `rng i % 2^32`. -/
def Graph.new (rng : Nat → Nat) (n : Nat) : Except Unit Graph :=
  if n ≤ 32 then
    let edgesNumber := 2 ^ n
    let modulus := edgesNumber % 2 ^ 32
    if modulus = 0 then .error ()
    else
      .ok ⟨(List.range edgesNumber).map (fun i =>
        ((rng (2 * i) % 2 ^ 32) % modulus, (rng (2 * i + 1) % 2 ^ 32) % modulus))⟩
  else .error ()

/-- The edge the verifier looks for at step `i` of a candidate cycle:
`(top, bottom) = (cycle[i-1], cycle[i])` when `i` is odd and
`(top, bottom) = (cycle[i], cycle[i-1])` when `i` is even. -/
def mkEdge (cycle : List Nat) (i : Nat) : Nat × Nat :=
  if i % 2 = 1 then (cyGet cycle (i - 1), cyGet cycle i)
  else (cyGet cycle i, cyGet cycle (i - 1))

/-- The list of edges a candidate cycle of sequence length `L` claims to
traverse, for steps `i = 1 … L-1`. -/
def cycleEdges (cycle : List Nat) : List (Nat × Nat) :=
  (List.range' 1 (cycle.length - 1)).map (mkEdge cycle)

/-- The per-edge test of the verifier's inner loop. -/
def edgeMatchB (cycle : List Nat) (i : Nat) (e : Nat × Nat) : Bool :=
  (i % 2 != 0 && e.1 == cyGet cycle (i - 1) && e.2 == cyGet cycle i)
    || (i % 2 == 0 && e.2 == cyGet cycle (i - 1) && e.1 == cyGet cycle i)

/-- `Graph::verify`: reject even sequence lengths, then for each
`i = 1 … len-1` scan the edge list for a matching edge. -/
def Graph.verify (g : Graph) (cycle : List Nat) : Bool :=
  if cycle.length % 2 == 0 then false
  else (List.range' 1 (cycle.length - 1)).all (fun i =>
    g.edges.any (fun e => edgeMatchB cycle i e))

/-- The adjacency-construction loop of `Graph::solve`: for each edge
`(t, b)` in order, append `b` to `top_nodes[t]` unless already present,
and `t` to `bottom_nodes[b]` unless already present. -/
def buildAdjLoop : List (Nat × Nat) → List (List Nat) → List (List Nat) →
    Except Unit (List (List Nat) × List (List Nat))
  | [], topA, botA => .ok (topA, botA)
  | (t, b) :: rest, topA, botA =>
    match adjGet? topA t with
    | none => .error ()
    | some lt =>
      match adjGet? botA b with
      | none => .error ()
      | some lb =>
        buildAdjLoop rest
          (if b ∈ lt then topA else topA.set t (lt ++ [b]))
          (if t ∈ lb then botA else botA.set b (lb ++ [t]))

/-- The `retain` sweep of a pruning pass: remove the pruned vertex `v`
from `arr[b]` for every `b` in the pruned vertex's neighbor list. -/
def removeFromAll (v : Nat) : List Nat → List (List Nat) →
    Except Unit (List (List Nat))
  | [], arr => .ok arr
  | b :: rest, arr =>
    match adjGet? arr b with
    | some l => removeFromAll v rest (arr.set b (l.filter (fun x => x != v)))
    | none => .error ()

/-- One pruning pass of `Graph::solve` over the index list: a primary
vertex with fewer than two listed neighbors has itself removed from the
secondary lists of all its neighbors and its own list cleared. Pass 1
instantiates (primary, secondary) with (top, bottom), pass 2 with
(bottom, top). -/
def pruneLoop : List Nat → List (List Nat) → List (List Nat) →
    Except Unit (List (List Nat) × List (List Nat))
  | [], pri, sec => .ok (pri, sec)
  | i :: rest, pri, sec =>
    match adjGet? pri i with
    | none => .error ()
    | some l =>
      if l.length < 2 then
        match removeFromAll i l sec with
        | .error e => .error e
        | .ok sec1 => pruneLoop rest (pri.set i []) sec1
      else pruneLoop rest pri sec

/-- The freshly built transition matrices of `Graph::solve`, before
pruning. -/
def Graph.builtAdj (g : Graph) : Except Unit (List (List Nat) × List (List Nat)) :=
  buildAdjLoop g.edges (List.replicate g.edges.length [])
    (List.replicate g.edges.length [])

/-- The transition matrices of `Graph::solve` after the top-side pass and
then the bottom-side pass of pruning. -/
def Graph.prunedAdj (g : Graph) : Except Unit (List (List Nat) × List (List Nat)) :=
  match g.builtAdj with
  | .error e => .error e
  | .ok (top0, bot0) =>
    match pruneLoop (List.range g.edges.length) top0 bot0 with
    | .error e => .error e
    | .ok (top1, bot1) =>
      match pruneLoop (List.range g.edges.length) bot1 top1 with
      | .error e => .error e
      | .ok (bot2, top2) => .ok (top2, bot2)

/-- The DFS node space: the same numeric identifier is a distinct node on
each side of the bipartite graph. -/
inductive GraphSide where
  | top (v : Nat)
  | bottom (v : Nat)
deriving DecidableEq

/-- Listed out-degree of a side-tagged node in the transition matrices. -/
def outdeg (topA botA : List (List Nat)) : GraphSide → Nat
  | .top v => (adjGet topA v).length
  | .bottom v => (adjGet botA v).length

/-- All side-tagged nodes with an index inside the transition matrices. -/
def sideUniverse (topA botA : List (List Nat)) : Finset GraphSide :=
  (Finset.range topA.length).image GraphSide.top ∪
    (Finset.range botA.length).image GraphSide.bottom

/-- Total listed out-degree of the not-yet-visited nodes: the termination
potential of the DFS worklist loop. Every iteration strictly decreases
potential plus stack length, so this bounds the remaining iterations. -/
def dfsPotential (topA botA : List (List Nat)) (visited : Finset GraphSide) : Nat :=
  Finset.sum ((sideUniverse topA botA).filter (fun x => x ∉ visited))
    (outdeg topA botA)

/-- The iterative DFS worklist loop of `Graph::solve` for one target top
node. A popped entry is expanded when its node is newly visited and its
path is below the depth bound; otherwise, a path longer than 3 that has
come back to the target top node is offered to the handler. The fuel
argument only makes the recursion structural; the solver passes enough
fuel for it never to reach 0 (`dfsLoop_ok_ex`). -/
def dfsLoop {σ : Type} (topA botA : List (List Nat)) (maxDepth target : Nat)
    (handler : σ → List Nat → Bool × σ) :
    Nat → List (GraphSide × List Nat) → Finset GraphSide → σ →
    Except Unit (Option (List Nat) × σ)
  | 0, _, _, _ => .error ()
  | _ + 1, [], _, s => .ok (none, s)
  | fuel + 1, (node, path) :: rest, visited, s =>
    if node ∉ visited ∧ path.length < maxDepth then
      match node with
      | .top v =>
        match adjGet? topA v with
        | some neighbors =>
          dfsLoop topA botA maxDepth target handler fuel
            ((neighbors.map (fun b => (GraphSide.bottom b, path ++ [b]))).reverse ++ rest)
            (insert node visited) s
        | none => .error ()
      | .bottom v =>
        match adjGet? botA v with
        | some neighbors =>
          dfsLoop topA botA maxDepth target handler fuel
            ((neighbors.map (fun t => (GraphSide.top t, path ++ [t]))).reverse ++ rest)
            (insert node visited) s
        | none => .error ()
    else if node = GraphSide.top target ∧ path.length > 3 then
      match handler s path with
      | (true, s1) => .ok (some path, s1)
      | (false, s1) =>
        dfsLoop topA botA maxDepth target handler fuel rest (insert node visited) s1
    else dfsLoop topA botA maxDepth target handler fuel rest (insert node visited) s

/-- The outer loop of `Graph::solve`: run the DFS from every top node with
a non-empty neighbor list, threading the handler state, and return the
first accepted path. -/
def solveLoop {σ : Type} (topA botA : List (List Nat)) (maxDepth : Nat)
    (handler : σ → List Nat → Bool × σ) :
    List Nat → σ → Except Unit (Option (List Nat) × σ)
  | [], s => .ok (none, s)
  | t :: rest, s =>
    match adjGet? topA t with
    | none => .error ()
    | some l =>
      if l.isEmpty then solveLoop topA botA maxDepth handler rest s
      else
        match dfsLoop topA botA maxDepth t handler (dfsPotential topA botA ∅ + 2)
            [(GraphSide.top t, [t])] ∅ s with
        | .error e => .error e
        | .ok (some p, s1) => .ok (some p, s1)
        | .ok (none, s1) => solveLoop topA botA maxDepth handler rest s1

/-- `Graph::solve`: build the transition matrices, prune both sides, then
search. Returns the accepted path together with the handler's final
state (the caller of the Rust function observes that state through its
FnMut closure). -/
def Graph.solve {σ : Type} (g : Graph) (maxDepth : Nat)
    (handler : σ → List Nat → Bool × σ) (s0 : σ) :
    Except Unit (Option (List Nat) × σ) :=
  match g.prunedAdj with
  | .error e => .error e
  | .ok (topA, botA) =>
    solveLoop topA botA maxDepth handler (List.range g.edges.length) s0

/-- `Graph::solve_for`: reject even or small `diff` outright, otherwise
search for a cycle of sequence length exactly `diff`. -/
def Graph.solve_for (g : Graph) (diff : Nat) : Except Unit (Option (List Nat)) :=
  if diff % 2 = 0 ∨ diff < 5 then .ok none
  else Except.map Prod.fst
    (g.solve diff (fun (_ : Unit) cycle => (cycle.length == diff, ())) ())

/-- Wrapper recording every sequence a handler is invoked on. -/
def logWrap {σ : Type} (handler : σ → List Nat → Bool × σ) :
    σ × List (List Nat) → List Nat → Bool × (σ × List (List Nat)) :=
  fun p cycle =>
    match handler p.1 cycle with
    | (b, s1) => (b, (s1, p.2 ++ [cycle]))

/-- Whether an Except value is a non-panicking result. -/
def exceptOk {α : Type} : Except Unit α → Bool
  | .ok _ => true
  | .error _ => false

/-- The edge endpoints of a graph all index into the edge list; every
graph the Rust library can construct (its field is private, so only
`Graph::new` builds one) satisfies this. -/
def Graph.WF (g : Graph) : Prop :=
  ∀ e ∈ g.edges, e.1 < g.edges.length ∧ e.2 < g.edges.length

/-- The two transition matrices list mutually inverse relations. -/
def MutualAdj (priA secA : List (List Nat)) : Prop :=
  ∀ x y, y ∈ adjGet priA x ↔ x ∈ adjGet secA y

/-- Every listed neighbor indexes into the opposite matrix. -/
def adjBounded (topA botA : List (List Nat)) : Prop :=
  (∀ j x, x ∈ adjGet topA j → x < botA.length) ∧
    (∀ j x, x ∈ adjGet botA j → x < topA.length)

/-- A side-tagged node indexes into its matrix. -/
def nodeBounded (topA botA : List (List Nat)) : GraphSide → Prop
  | .top v => v < topA.length
  | .bottom v => v < botA.length

/-- Every listed neighbor relation is backed by an edge of the graph. -/
def subEdges (g : Graph) (topA botA : List (List Nat)) : Prop :=
  (∀ t b, b ∈ adjGet topA t → (t, b) ∈ g.edges) ∧
    (∀ b t, t ∈ adjGet botA b → (t, b) ∈ g.edges)

/-- Invariant of the DFS stack entries for one target: the path starts at
the target, its claimed edges are edges of the graph, its last element and
parity agree with the side-tagged node, and (except for the initial
singleton) its length respects the depth bound. -/
def entryOk (g : Graph) (target maxDepth : Nat) : GraphSide × List Nat → Prop
  | (node, path) =>
    path ≠ [] ∧ cyGet path 0 = target ∧
    (∀ e ∈ cycleEdges path, e ∈ g.edges) ∧
    (path.length ≤ maxDepth ∨ path = [target]) ∧
    (match node with
     | .top v => cyGet path (path.length - 1) = v ∧ path.length % 2 = 1
     | .bottom v => cyGet path (path.length - 1) = v ∧ path.length % 2 = 0)

/-- What the solver guarantees of every path it hands to a handler: odd
sequence length, at least 5, at most the depth bound, and closed at its
starting top vertex. -/
def goodPath (maxDepth : Nat) (p : List Nat) : Prop :=
  p.length % 2 = 1 ∧ 5 ≤ p.length ∧ p.length ≤ maxDepth ∧
    ∃ v, p.head? = some v ∧ p.getLast? = some v

/-- The stateless handler accepting every offered cycle. -/
def acceptAll : Unit → List Nat → Bool × Unit := fun _ _ => (true, ())

/-- Example graph with four edges and a 5-cycle `[0, 1, 1, 0, 0]`. -/
def exGraphA : Graph := ⟨[(0, 0), (0, 1), (1, 0), (1, 1)]⟩

/-- Example graph whose two vertices are all pruned although the odd
closed walk `[0, 0, 1, 0, 0]` passes verification. -/
def exGraphB : Graph := ⟨[(0, 0), (1, 0)]⟩

/-- Example graph for which the second pruning pass leaves a top-side
neighbor list of length 1. -/
def exGraphC : Graph := ⟨[(0, 0), (0, 1), (1, 1), (1, 2)]⟩

lemma adjGet?_eq_some {arr : List (List Nat)} {i : Nat} {l : List Nat} :
    adjGet? arr i = some l ↔ i < arr.length ∧ adjGet arr i = l := by
  induction arr generalizing i with
  | nil => simp [adjGet?, adjGet]
  | cons hd tl ih =>
    cases i with
    | zero => simp [adjGet?, adjGet]
    | succ j => simpa [adjGet?, adjGet, Nat.succ_lt_succ_iff] using ih

lemma adjGet?_of_lt {arr : List (List Nat)} {i : Nat} (h : i < arr.length) :
    adjGet? arr i = some (adjGet arr i) :=
  adjGet?_eq_some.mpr ⟨h, rfl⟩

lemma adjGet?_of_ge {arr : List (List Nat)} {i : Nat} (h : arr.length ≤ i) :
    adjGet? arr i = none := by
  induction arr generalizing i with
  | nil => simp [adjGet?]
  | cons hd tl ih =>
    cases i with
    | zero => simp at h
    | succ j => exact ih (Nat.le_of_succ_le_succ h)

lemma adjGet_of_ge {arr : List (List Nat)} {i : Nat} (h : arr.length ≤ i) :
    adjGet arr i = [] := by
  simp [adjGet, adjGet?_of_ge h]

lemma adjGet_set_self {arr : List (List Nat)} {i : Nat} {x : List Nat}
    (h : i < arr.length) : adjGet (arr.set i x) i = x := by
  induction arr generalizing i with
  | nil => simp at h
  | cons hd tl ih =>
    cases i with
    | zero => simp [List.set, adjGet, adjGet?]
    | succ j =>
      simpa [List.set, adjGet, adjGet?] using ih (Nat.lt_of_succ_lt_succ h)

lemma adjGet_set_ne {arr : List (List Nat)} {i j : Nat} {x : List Nat}
    (h : i ≠ j) : adjGet (arr.set i x) j = adjGet arr j := by
  induction arr generalizing i j with
  | nil => simp [List.set]
  | cons hd tl ih =>
    cases i with
    | zero =>
      cases j with
      | zero => exact absurd rfl h
      | succ k => simp [List.set, adjGet, adjGet?]
    | succ i' =>
      cases j with
      | zero => simp [List.set, adjGet, adjGet?]
      | succ k =>
        simpa [List.set, adjGet, adjGet?] using ih (fun hh => h (by omega))

lemma adjGet_replicate (n i : Nat) : adjGet (List.replicate n ([] : List Nat)) i = [] := by
  induction n generalizing i with
  | zero => simp [List.replicate, adjGet, adjGet?]
  | succ m ih =>
    cases i with
    | zero => simp [List.replicate, adjGet, adjGet?]
    | succ j => simpa [List.replicate, adjGet, adjGet?] using ih j

lemma cyGet_append_of_lt {p q : List Nat} {i : Nat} (h : i < p.length) :
    cyGet (p ++ q) i = cyGet p i := by
  induction p generalizing i with
  | nil => simp at h
  | cons hd tl ih =>
    cases i with
    | zero => simp [cyGet]
    | succ j => simpa [cyGet] using ih (Nat.lt_of_succ_lt_succ h)

lemma cyGet_append_length (p : List Nat) (b : Nat) (q : List Nat) :
    cyGet (p ++ b :: q) p.length = b := by
  induction p with
  | nil => simp [cyGet]
  | cons hd tl ih => simpa [cyGet] using ih

lemma head?_eq_cyGet {p : List Nat} (h : p ≠ []) : p.head? = some (cyGet p 0) := by
  cases p with
  | nil => exact absurd rfl h
  | cons hd tl => simp [cyGet]

lemma getLast?_eq_cyGet {p : List Nat} (h : p ≠ []) :
    p.getLast? = some (cyGet p (p.length - 1)) := by
  induction p with
  | nil => exact absurd rfl h
  | cons hd tl ih =>
    cases tl with
    | nil => simp [cyGet]
    | cons x t =>
      rw [List.getLast?_cons_cons, ih (by simp)]
      simp [cyGet]

lemma edgeMatchB_eq_true {cycle : List Nat} {i : Nat} {e : Nat × Nat} :
    edgeMatchB cycle i e = true ↔ e = mkEdge cycle i := by
  rcases e with ⟨a, b⟩
  rcases Nat.mod_two_eq_zero_or_one i with h | h <;>
    simp [edgeMatchB, mkEdge, h, Prod.ext_iff] <;> tauto

lemma verify_eq_true_iff (g : Graph) (p : List Nat) :
    g.verify p = true ↔ p.length % 2 = 1 ∧ ∀ e ∈ cycleEdges p, e ∈ g.edges := by
  have hsplit : g.verify p = true ↔ (p.length % 2 == 0) = false ∧
      ∀ i ∈ List.range' 1 (p.length - 1), ∃ e ∈ g.edges, edgeMatchB p i e = true := by
    unfold Graph.verify
    rcases Bool.eq_false_or_eq_true (p.length % 2 == 0) with hb | hb <;>
      simp [hb, List.all_eq_true, List.any_eq_true]
  rw [hsplit]
  have hmod : ((p.length % 2 == 0) = false) ↔ p.length % 2 = 1 := by
    rcases Nat.mod_two_eq_zero_or_one p.length with h | h <;> simp [h]
  rw [hmod]
  refine and_congr_right (fun _ => ?_)
  constructor
  · intro hall e he
    rw [cycleEdges, List.mem_map] at he
    obtain ⟨i, hi, rfl⟩ := he
    obtain ⟨e, hmem, heq⟩ := hall i hi
    rw [edgeMatchB_eq_true] at heq
    exact heq ▸ hmem
  · intro hall i hi
    refine ⟨mkEdge p i, hall _ ?_, edgeMatchB_eq_true.mpr rfl⟩
    rw [cycleEdges, List.mem_map]
    exact ⟨i, hi, rfl⟩

lemma buildAdjLoop_lengths {edges : List (Nat × Nat)} :
    ∀ {topA botA topA' botA' : List (List Nat)},
      buildAdjLoop edges topA botA = .ok (topA', botA') →
      topA'.length = topA.length ∧ botA'.length = botA.length := by
  induction edges with
  | nil =>
    intro topA botA topA' botA' h
    simp only [buildAdjLoop, Except.ok.injEq, Prod.mk.injEq] at h
    rw [← h.1, ← h.2]
    exact ⟨rfl, rfl⟩
  | cons e rest ih =>
    rcases e with ⟨t, b⟩
    intro topA botA topA' botA' h
    rw [buildAdjLoop] at h
    cases ht : adjGet? topA t with
    | none => simp only [ht] at h; exact Except.noConfusion h
    | some lt =>
      cases hb : adjGet? botA b with
      | none => simp only [ht, hb] at h; exact Except.noConfusion h
      | some lb =>
        simp only [ht, hb] at h
        obtain ⟨h1, h2⟩ := ih h
        constructor
        · rw [h1]; split <;> simp
        · rw [h2]; split <;> simp

lemma buildAdjLoop_mem_top {edges : List (Nat × Nat)} :
    ∀ {topA botA topA' botA' : List (List Nat)},
      buildAdjLoop edges topA botA = .ok (topA', botA') →
      ∀ t x, x ∈ adjGet topA' t ↔ x ∈ adjGet topA t ∨ (t, x) ∈ edges := by
  induction edges with
  | nil =>
    intro topA botA topA' botA' h t x
    simp only [buildAdjLoop, Except.ok.injEq, Prod.mk.injEq] at h
    rw [← h.1]
    simp
  | cons e rest ih =>
    rcases e with ⟨a, c⟩
    intro topA botA topA' botA' h t x
    rw [buildAdjLoop] at h
    cases ht : adjGet? topA a with
    | none => simp only [ht] at h; exact Except.noConfusion h
    | some la =>
      cases hb : adjGet? botA c with
      | none => simp only [ht, hb] at h; exact Except.noConfusion h
      | some lc =>
        simp only [ht, hb] at h
        rw [ih h t x]
        have ha := adjGet?_eq_some.mp ht
        have hstep : x ∈ adjGet (if c ∈ la then topA else topA.set a (la ++ [c])) t
            ↔ x ∈ adjGet topA t ∨ (t = a ∧ x = c) := by
          split
          · rename_i hc
            constructor
            · exact fun hx => Or.inl hx
            · rintro (hx | ⟨rfl, rfl⟩)
              · exact hx
              · rw [ha.2]; exact hc
          · rename_i hc
            by_cases hta : t = a
            · subst hta
              rw [adjGet_set_self ha.1, ha.2]
              simp [List.mem_append]
            · rw [adjGet_set_ne (fun hh => hta hh.symm)]
              simp [hta]
        rw [hstep]
        simp only [List.mem_cons, Prod.mk.injEq]
        tauto

lemma buildAdjLoop_mem_bot {edges : List (Nat × Nat)} :
    ∀ {topA botA topA' botA' : List (List Nat)},
      buildAdjLoop edges topA botA = .ok (topA', botA') →
      ∀ j x, x ∈ adjGet botA' j ↔ x ∈ adjGet botA j ∨ (x, j) ∈ edges := by
  induction edges with
  | nil =>
    intro topA botA topA' botA' h j x
    simp only [buildAdjLoop, Except.ok.injEq, Prod.mk.injEq] at h
    rw [← h.2]
    simp
  | cons e rest ih =>
    rcases e with ⟨a, c⟩
    intro topA botA topA' botA' h j x
    rw [buildAdjLoop] at h
    cases ht : adjGet? topA a with
    | none => simp only [ht] at h; exact Except.noConfusion h
    | some la =>
      cases hb : adjGet? botA c with
      | none => simp only [ht, hb] at h; exact Except.noConfusion h
      | some lc =>
        simp only [ht, hb] at h
        rw [ih h j x]
        have hbb := adjGet?_eq_some.mp hb
        have hstep : x ∈ adjGet (if a ∈ lc then botA else botA.set c (lc ++ [a])) j
            ↔ x ∈ adjGet botA j ∨ (j = c ∧ x = a) := by
          split
          · rename_i hc
            constructor
            · exact fun hx => Or.inl hx
            · rintro (hx | ⟨rfl, rfl⟩)
              · exact hx
              · rw [hbb.2]; exact hc
          · rename_i hc
            by_cases htc : j = c
            · subst htc
              rw [adjGet_set_self hbb.1, hbb.2]
              simp [List.mem_append]
            · rw [adjGet_set_ne (fun hh => htc hh.symm)]
              simp [htc]
        rw [hstep]
        simp only [List.mem_cons, Prod.mk.injEq]
        tauto

lemma buildAdjLoop_ok_ex {edges : List (Nat × Nat)} :
    ∀ {topA botA : List (List Nat)},
      (∀ e ∈ edges, e.1 < topA.length ∧ e.2 < botA.length) →
      ∃ r, buildAdjLoop edges topA botA = .ok r := by
  induction edges with
  | nil => exact fun _ => ⟨_, rfl⟩
  | cons e rest ih =>
    rcases e with ⟨t, b⟩
    intro topA botA h
    have h1 := (h (t, b) (List.mem_cons_self _ _)).1
    have h2 := (h (t, b) (List.mem_cons_self _ _)).2
    rw [buildAdjLoop]
    simp only [adjGet?_of_lt h1, adjGet?_of_lt h2]
    apply ih
    intro e he
    have he2 := h e (List.mem_cons_of_mem _ he)
    have hl1 : (if b ∈ adjGet topA t then topA
        else topA.set t (adjGet topA t ++ [b])).length = topA.length := by
      split <;> simp
    have hl2 : (if t ∈ adjGet botA b then botA
        else botA.set b (adjGet botA b ++ [t])).length = botA.length := by
      split <;> simp
    rw [hl1, hl2]
    exact he2

lemma buildAdjLoop_mutual {edges : List (Nat × Nat)} :
    ∀ {topA botA topA' botA' : List (List Nat)},
      buildAdjLoop edges topA botA = .ok (topA', botA') →
      MutualAdj topA botA → MutualAdj topA' botA' := by
  induction edges with
  | nil =>
    intro topA botA topA' botA' h hm
    simp only [buildAdjLoop, Except.ok.injEq, Prod.mk.injEq] at h
    rw [← h.1, ← h.2]
    exact hm
  | cons e rest ih =>
    rcases e with ⟨t, b⟩
    intro topA botA topA' botA' h hm
    rw [buildAdjLoop] at h
    cases ht : adjGet? topA t with
    | none => simp only [ht] at h; exact Except.noConfusion h
    | some lt =>
      cases hb : adjGet? botA b with
      | none => simp only [ht, hb] at h; exact Except.noConfusion h
      | some lb =>
        simp only [ht, hb] at h
        refine ih h ?_
        have h1 := adjGet?_eq_some.mp ht
        have h2 := adjGet?_eq_some.mp hb
        have hkey : (b ∈ lt) ↔ (t ∈ lb) := by
          rw [← h1.2, ← h2.2]; exact hm t b
        by_cases hc : b ∈ lt
        · rw [if_pos hc, if_pos (hkey.mp hc)]; exact hm
        · rw [if_neg hc, if_neg (fun hh => hc (hkey.mpr hh))]
          intro x y
          by_cases hx : x = t <;> by_cases hy : y = b
          · rw [hx, hy]
            rw [adjGet_set_self h1.1, adjGet_set_self h2.1]
            simp
          · rw [hx]
            rw [adjGet_set_self h1.1, adjGet_set_ne (fun hh => hy hh.symm)]
            have hxy := hm t y
            rw [h1.2] at hxy
            simp only [List.mem_append, List.mem_singleton, hy, or_false]
            exact hxy
          · rw [hy]
            rw [adjGet_set_ne (fun hh => hx hh.symm), adjGet_set_self h2.1]
            have hxy := hm x b
            rw [h2.2] at hxy
            simp only [List.mem_append, List.mem_singleton, hx, or_false]
            exact hxy
          · rw [adjGet_set_ne (fun hh => hx hh.symm),
              adjGet_set_ne (fun hh => hy hh.symm)]
            exact hm x y

lemma builtAdj_spec {g : Graph} {top0 bot0 : List (List Nat)}
    (h : g.builtAdj = .ok (top0, bot0)) :
    top0.length = g.edges.length ∧ bot0.length = g.edges.length ∧
      (∀ t x, x ∈ adjGet top0 t ↔ (t, x) ∈ g.edges) ∧
      (∀ j x, x ∈ adjGet bot0 j ↔ (x, j) ∈ g.edges) := by
  unfold Graph.builtAdj at h
  obtain ⟨h1, h2⟩ := buildAdjLoop_lengths h
  refine ⟨by simpa using h1, by simpa using h2, ?_, ?_⟩
  · intro t x
    rw [buildAdjLoop_mem_top h t x, adjGet_replicate]
    simp
  · intro j x
    rw [buildAdjLoop_mem_bot h j x, adjGet_replicate]
    simp

lemma builtAdj_ok_ex {g : Graph} (hwf : g.WF) : ∃ r, g.builtAdj = .ok r := by
  unfold Graph.builtAdj
  apply buildAdjLoop_ok_ex
  intro e he
  have := hwf e he
  simpa using this

lemma builtAdj_mutual {g : Graph} {top0 bot0 : List (List Nat)}
    (h : g.builtAdj = .ok (top0, bot0)) : MutualAdj top0 bot0 := by
  unfold Graph.builtAdj at h
  refine buildAdjLoop_mutual h ?_
  intro x y
  simp [adjGet_replicate]

lemma two_le_length_of_mem {α : Type} {a b : α} {l : List α}
    (ha : a ∈ l) (hb : b ∈ l) (hab : a ≠ b) : 2 ≤ l.length := by
  cases l with
  | nil => simp at ha
  | cons x xs =>
    rcases List.mem_cons.mp ha with rfl | ha'
    · rcases List.mem_cons.mp hb with rfl | hb'
      · exact absurd rfl hab
      · have := List.length_pos_of_mem hb'
        simp only [List.length_cons]
        omega
    · have := List.length_pos_of_mem ha'
      simp only [List.length_cons]
      omega

lemma removeFromAll_spec {v : Nat} {targets : List Nat} :
    ∀ {arr out : List (List Nat)}, removeFromAll v targets arr = .ok out →
      out.length = arr.length ∧
      ∀ j, adjGet out j =
        if j ∈ targets then (adjGet arr j).filter (fun x => x != v)
        else adjGet arr j := by
  induction targets with
  | nil =>
    intro arr out h
    simp only [removeFromAll, Except.ok.injEq] at h
    rw [← h]
    exact ⟨rfl, fun j => by simp⟩
  | cons b rest ih =>
    intro arr out h
    rw [removeFromAll] at h
    cases hb : adjGet? arr b with
    | none => simp only [hb] at h; exact Except.noConfusion h
    | some l =>
      simp only [hb] at h
      obtain ⟨hlen, hspec⟩ := ih h
      have hbb := adjGet?_eq_some.mp hb
      refine ⟨by rw [hlen]; simp, fun j => ?_⟩
      rw [hspec j]
      by_cases hjr : j ∈ rest
      · rw [if_pos hjr, if_pos (by simp [hjr])]
        by_cases hjb : j = b
        · subst hjb
          rw [adjGet_set_self hbb.1, ← hbb.2, List.filter_filter]
          congr 1
          funext x
          exact (Bool.and_self _).symm ▸ rfl
        · rw [adjGet_set_ne (fun hh => hjb hh.symm)]
      · rw [if_neg hjr]
        by_cases hjb : j = b
        · subst hjb
          rw [if_pos (List.mem_cons_self _ _), adjGet_set_self hbb.1, hbb.2]
        · rw [if_neg (by simp [hjb, hjr]), adjGet_set_ne (fun hh => hjb hh.symm)]

lemma removeFromAll_ok_ex {v : Nat} {targets : List Nat} :
    ∀ {arr : List (List Nat)}, (∀ b ∈ targets, b < arr.length) →
      ∃ out, removeFromAll v targets arr = .ok out := by
  induction targets with
  | nil => exact fun _ => ⟨_, rfl⟩
  | cons b rest ih =>
    intro arr h
    rw [removeFromAll]
    simp only [adjGet?_of_lt (h b (List.mem_cons_self _ _))]
    apply ih
    intro x hx
    rw [List.length_set]
    exact h x (List.mem_cons_of_mem _ hx)

lemma pruneLoop_ok_ex {idxs : List Nat} :
    ∀ {pri sec : List (List Nat)},
      (∀ i ∈ idxs, i < pri.length) →
      (∀ j x, x ∈ adjGet pri j → x < sec.length) →
      ∃ r, pruneLoop idxs pri sec = .ok r := by
  induction idxs with
  | nil => exact fun _ _ => ⟨_, rfl⟩
  | cons i rest ih =>
    intro pri sec h1 h2
    have hi := h1 i (List.mem_cons_self _ _)
    rw [pruneLoop]
    simp only [adjGet?_of_lt hi]
    by_cases hlen : (adjGet pri i).length < 2
    · rw [if_pos hlen]
      obtain ⟨out, hout⟩ := @removeFromAll_ok_ex i (adjGet pri i) sec
        (fun b hb => h2 i b hb)
      simp only [hout]
      obtain ⟨hL, hsp⟩ := removeFromAll_spec hout
      apply ih
      · intro j hj
        rw [List.length_set]
        exact h1 j (List.mem_cons_of_mem _ hj)
      · intro j x hx
        rw [hL]
        by_cases hij : i = j
        · rw [← hij, adjGet_set_self hi] at hx
          simp at hx
        · rw [adjGet_set_ne hij] at hx
          exact h2 j x hx
    · rw [if_neg hlen]
      exact ih (fun j hj => h1 j (List.mem_cons_of_mem _ hj)) h2

lemma pruneLoop_lengths {idxs : List Nat} :
    ∀ {pri sec pri' sec' : List (List Nat)},
      pruneLoop idxs pri sec = .ok (pri', sec') →
      pri'.length = pri.length ∧ sec'.length = sec.length := by
  induction idxs with
  | nil =>
    intro pri sec pri' sec' h
    simp only [pruneLoop, Except.ok.injEq, Prod.mk.injEq] at h
    rw [← h.1, ← h.2]
    exact ⟨rfl, rfl⟩
  | cons i rest ih =>
    intro pri sec pri' sec' h
    rw [pruneLoop] at h
    cases hl : adjGet? pri i with
    | none => simp only [hl] at h; exact Except.noConfusion h
    | some l =>
      simp only [hl] at h
      by_cases hlen : l.length < 2
      · rw [if_pos hlen] at h
        cases hrem : removeFromAll i l sec with
        | error e => simp only [hrem] at h; exact Except.noConfusion h
        | ok sec1 =>
          simp only [hrem] at h
          obtain ⟨h1, h2⟩ := ih h
          obtain ⟨h3, -⟩ := removeFromAll_spec hrem
          rw [h1, h2, h3, List.length_set]
          exact ⟨rfl, rfl⟩
      · rw [if_neg hlen] at h
        exact ih h

lemma pruneLoop_subset {idxs : List Nat} :
    ∀ {pri sec pri' sec' : List (List Nat)},
      pruneLoop idxs pri sec = .ok (pri', sec') →
      (∀ j x, x ∈ adjGet pri' j → x ∈ adjGet pri j) ∧
        (∀ j x, x ∈ adjGet sec' j → x ∈ adjGet sec j) := by
  induction idxs with
  | nil =>
    intro pri sec pri' sec' h
    simp only [pruneLoop, Except.ok.injEq, Prod.mk.injEq] at h
    rw [← h.1, ← h.2]
    exact ⟨fun _ _ hx => hx, fun _ _ hx => hx⟩
  | cons i rest ih =>
    intro pri sec pri' sec' h
    rw [pruneLoop] at h
    cases hl : adjGet? pri i with
    | none => simp only [hl] at h; exact Except.noConfusion h
    | some l =>
      simp only [hl] at h
      have hil := adjGet?_eq_some.mp hl
      by_cases hlen : l.length < 2
      · rw [if_pos hlen] at h
        cases hrem : removeFromAll i l sec with
        | error e => simp only [hrem] at h; exact Except.noConfusion h
        | ok sec1 =>
          simp only [hrem] at h
          obtain ⟨ihp, ihs⟩ := ih h
          obtain ⟨-, hsp⟩ := removeFromAll_spec hrem
          constructor
          · intro j x hx
            have hx2 := ihp j x hx
            by_cases hij : i = j
            · rw [← hij, adjGet_set_self hil.1] at hx2
              simp at hx2
            · rwa [adjGet_set_ne hij] at hx2
          · intro j x hx
            have hx2 := ihs j x hx
            rw [hsp j] at hx2
            by_cases hjl : j ∈ l
            · rw [if_pos hjl] at hx2
              exact List.mem_of_mem_filter hx2
            · rwa [if_neg hjl] at hx2
      · rw [if_neg hlen] at h
        exact ih h

lemma pruneLoop_mutual {idxs : List Nat} :
    ∀ {pri sec pri' sec' : List (List Nat)},
      pruneLoop idxs pri sec = .ok (pri', sec') →
      MutualAdj pri sec → MutualAdj pri' sec' := by
  induction idxs with
  | nil =>
    intro pri sec pri' sec' h hm
    simp only [pruneLoop, Except.ok.injEq, Prod.mk.injEq] at h
    rw [← h.1, ← h.2]
    exact hm
  | cons i rest ih =>
    intro pri sec pri' sec' h hm
    rw [pruneLoop] at h
    cases hl : adjGet? pri i with
    | none => simp only [hl] at h; exact Except.noConfusion h
    | some l =>
      simp only [hl] at h
      have hil := adjGet?_eq_some.mp hl
      by_cases hlen : l.length < 2
      · rw [if_pos hlen] at h
        cases hrem : removeFromAll i l sec with
        | error e => simp only [hrem] at h; exact Except.noConfusion h
        | ok sec1 =>
          simp only [hrem] at h
          obtain ⟨-, hsp⟩ := removeFromAll_spec hrem
          refine ih h ?_
          intro x y
          by_cases hxi : x = i
          · rw [hxi, adjGet_set_self hil.1]
            simp only [List.not_mem_nil, false_iff]
            rw [hsp y]
            by_cases hyl : y ∈ l
            · rw [if_pos hyl]
              intro hmem
              have := List.of_mem_filter hmem
              simp at this
            · rw [if_neg hyl]
              intro hmem
              have hy2 := (hm i y).mpr hmem
              rw [hil.2] at hy2
              exact hyl hy2
          · rw [adjGet_set_ne (fun hh => hxi hh.symm), hsp y]
            by_cases hyl : y ∈ l
            · rw [if_pos hyl, List.mem_filter]
              constructor
              · intro hy
                exact ⟨(hm x y).mp hy, by simp [hxi]⟩
              · rintro ⟨hy, -⟩
                exact (hm x y).mpr hy
            · rw [if_neg hyl]
              exact hm x y
      · rw [if_neg hlen] at h
        exact ih h hm

lemma pruneLoop_present {S : List (Nat × Nat)} {idxs : List Nat} :
    ∀ {pri sec pri' sec' : List (List Nat)},
      pruneLoop idxs pri sec = .ok (pri', sec') →
      (∀ x y, (x, y) ∈ S → ∃ y1 y2, (x, y1) ∈ S ∧ (x, y2) ∈ S ∧ y1 ≠ y2) →
      (∀ e ∈ S, e.2 ∈ adjGet pri e.1 ∧ e.1 ∈ adjGet sec e.2) →
      ∀ e ∈ S, e.2 ∈ adjGet pri' e.1 ∧ e.1 ∈ adjGet sec' e.2 := by
  induction idxs with
  | nil =>
    intro pri sec pri' sec' h htwo hpres
    simp only [pruneLoop, Except.ok.injEq, Prod.mk.injEq] at h
    rw [← h.1, ← h.2]
    exact hpres
  | cons i rest ih =>
    intro pri sec pri' sec' h htwo hpres
    rw [pruneLoop] at h
    cases hl : adjGet? pri i with
    | none => simp only [hl] at h; exact Except.noConfusion h
    | some l =>
      simp only [hl] at h
      have hil := adjGet?_eq_some.mp hl
      by_cases hlen : l.length < 2
      · rw [if_pos hlen] at h
        cases hrem : removeFromAll i l sec with
        | error e => simp only [hrem] at h; exact Except.noConfusion h
        | ok sec1 =>
          simp only [hrem] at h
          obtain ⟨-, hsp⟩ := removeFromAll_spec hrem
          have hnoti : ∀ y, (i, y) ∉ S := by
            intro y hy
            obtain ⟨y1, y2, hy1, hy2, hne⟩ := htwo i y hy
            have m1 : y1 ∈ l := by
              have := (hpres _ hy1).1
              rwa [hil.2] at this
            have m2 : y2 ∈ l := by
              have := (hpres _ hy2).1
              rwa [hil.2] at this
            exact absurd (two_le_length_of_mem m1 m2 hne) (by omega)
          refine ih h htwo ?_
          intro e he
          obtain ⟨h1, h2⟩ := hpres e he
          have hei : e.1 ≠ i := by
            intro hh
            exact hnoti e.2 (by rw [← hh]; exact he)
          constructor
          · rw [adjGet_set_ne (fun hh => hei hh.symm)]
            exact h1
          · rw [hsp e.2]
            by_cases hyl : e.2 ∈ l
            · rw [if_pos hyl, List.mem_filter]
              exact ⟨h2, by simp [hei]⟩
            · rw [if_neg hyl]
              exact h2
      · rw [if_neg hlen] at h
        exact ih h htwo hpres

lemma pruneLoop_low_pres {i : Nat} {idxs : List Nat} :
    ∀ {pri sec pri' sec' : List (List Nat)},
      pruneLoop idxs pri sec = .ok (pri', sec') →
      ((adjGet pri i).length = 0 ∨ 2 ≤ (adjGet pri i).length) →
      ((adjGet pri' i).length = 0 ∨ 2 ≤ (adjGet pri' i).length) := by
  induction idxs with
  | nil =>
    intro pri sec pri' sec' h hp
    simp only [pruneLoop, Except.ok.injEq, Prod.mk.injEq] at h
    rw [← h.1]
    exact hp
  | cons j rest ih =>
    intro pri sec pri' sec' h hp
    rw [pruneLoop] at h
    cases hl : adjGet? pri j with
    | none => simp only [hl] at h; exact Except.noConfusion h
    | some l =>
      simp only [hl] at h
      have hjl := adjGet?_eq_some.mp hl
      by_cases hlen : l.length < 2
      · rw [if_pos hlen] at h
        cases hrem : removeFromAll j l sec with
        | error e => simp only [hrem] at h; exact Except.noConfusion h
        | ok sec1 =>
          simp only [hrem] at h
          refine ih h ?_
          by_cases hij : j = i
          · rw [← hij, adjGet_set_self hjl.1]
            simp
          · rw [adjGet_set_ne hij]
            exact hp
      · rw [if_neg hlen] at h
        exact ih h hp

lemma pruneLoop_low {idxs : List Nat} :
    ∀ {pri sec pri' sec' : List (List Nat)},
      pruneLoop idxs pri sec = .ok (pri', sec') →
      ∀ i ∈ idxs, (adjGet pri' i).length = 0 ∨ 2 ≤ (adjGet pri' i).length := by
  induction idxs with
  | nil =>
    intro pri sec pri' sec' _ i hi
    simp at hi
  | cons j rest ih =>
    intro pri sec pri' sec' h i hi
    rw [pruneLoop] at h
    cases hl : adjGet? pri j with
    | none => simp only [hl] at h; exact Except.noConfusion h
    | some l =>
      simp only [hl] at h
      have hjl := adjGet?_eq_some.mp hl
      by_cases hlen : l.length < 2
      · rw [if_pos hlen] at h
        cases hrem : removeFromAll j l sec with
        | error e => simp only [hrem] at h; exact Except.noConfusion h
        | ok sec1 =>
          simp only [hrem] at h
          rcases List.mem_cons.mp hi with rfl | hi'
          · refine pruneLoop_low_pres h ?_
            rw [adjGet_set_self hjl.1]
            simp
          · exact ih h i hi'
      · rw [if_neg hlen] at h
        rcases List.mem_cons.mp hi with rfl | hi'
        · refine pruneLoop_low_pres h ?_
          rw [hjl.2]
          omega
        · exact ih h i hi'

lemma MutualAdj.symm {priA secA : List (List Nat)} (h : MutualAdj priA secA) :
    MutualAdj secA priA :=
  fun x y => (h y x).symm

lemma prunedAdj_split {g : Graph} {top2 bot2 : List (List Nat)}
    (h : g.prunedAdj = .ok (top2, bot2)) :
    ∃ top0 bot0 top1 bot1,
      g.builtAdj = .ok (top0, bot0) ∧
      pruneLoop (List.range g.edges.length) top0 bot0 = .ok (top1, bot1) ∧
      pruneLoop (List.range g.edges.length) bot1 top1 = .ok (bot2, top2) := by
  unfold Graph.prunedAdj at h
  cases hb : g.builtAdj with
  | error e => simp only [hb] at h; exact Except.noConfusion h
  | ok r =>
    rcases r with ⟨top0, bot0⟩
    simp only [hb] at h
    cases hp1 : pruneLoop (List.range g.edges.length) top0 bot0 with
    | error e => simp only [hp1] at h; exact Except.noConfusion h
    | ok r1 =>
      rcases r1 with ⟨top1, bot1⟩
      simp only [hp1] at h
      cases hp2 : pruneLoop (List.range g.edges.length) bot1 top1 with
      | error e => simp only [hp2] at h; exact Except.noConfusion h
      | ok r2 =>
        rcases r2 with ⟨b2, t2⟩
        simp only [hp2, Except.ok.injEq, Prod.mk.injEq] at h
        refine ⟨top0, bot0, top1, bot1, rfl, hp1, ?_⟩
        rw [← h.1, ← h.2]
        exact hp2

lemma prunedAdj_lengths {g : Graph} {top2 bot2 : List (List Nat)}
    (h : g.prunedAdj = .ok (top2, bot2)) :
    top2.length = g.edges.length ∧ bot2.length = g.edges.length := by
  obtain ⟨top0, bot0, top1, bot1, hb, hp1, hp2⟩ := prunedAdj_split h
  obtain ⟨l0t, l0b, -, -⟩ := builtAdj_spec hb
  obtain ⟨l1t, l1b⟩ := pruneLoop_lengths hp1
  obtain ⟨l2b, l2t⟩ := pruneLoop_lengths hp2
  exact ⟨by rw [l2t, l1t, l0t], by rw [l2b, l1b, l0b]⟩

lemma prunedAdj_subset {g : Graph} {top2 bot2 : List (List Nat)}
    (h : g.prunedAdj = .ok (top2, bot2)) :
    (∀ t b, b ∈ adjGet top2 t → (t, b) ∈ g.edges) ∧
      (∀ b t, t ∈ adjGet bot2 b → (t, b) ∈ g.edges) := by
  obtain ⟨top0, bot0, top1, bot1, hb, hp1, hp2⟩ := prunedAdj_split h
  obtain ⟨-, -, hmt, hmb⟩ := builtAdj_spec hb
  obtain ⟨hs1p, hs1s⟩ := pruneLoop_subset hp1
  obtain ⟨hs2p, hs2s⟩ := pruneLoop_subset hp2
  constructor
  · intro t b hmem
    exact (hmt t b).mp (hs1p t b (hs2s t b hmem))
  · intro b t hmem
    exact (hmb b t).mp (hs1s b t (hs2p b t hmem))

/-- C7 (amended): after the two pruning passes the two adjacency maps are
mutual inverses, and every bottom-side neighbor list has length 0 or at
least 2. The original claim also asserted the length property of the
top-side lists; that fails because the second (bottom-side) pass can
shorten a top list from 2 to 1 without revisiting it (see the
counterexample). -/
theorem spec_c7_pruned_adjacency {g : Graph} {top2 bot2 : List (List Nat)}
    (h : g.prunedAdj = .ok (top2, bot2)) :
    MutualAdj top2 bot2 ∧
      ∀ i, (adjGet bot2 i).length = 0 ∨ 2 ≤ (adjGet bot2 i).length := by
  obtain ⟨top0, bot0, top1, bot1, hb, hp1, hp2⟩ := prunedAdj_split h
  constructor
  · exact (pruneLoop_mutual hp2 (pruneLoop_mutual hp1 (builtAdj_mutual hb)).symm).symm
  · intro i
    by_cases hi : i < g.edges.length
    · exact pruneLoop_low hp2 i (List.mem_range.mpr hi)
    · left
      rw [adjGet_of_ge (by rw [(prunedAdj_lengths h).2]; omega)]
      rfl

/-- C7 witness: on the four-edge example graph the amended theorem applies
with the pruned matrices computed by rfl, giving the degree property of
bottom vertex 1. -/
theorem spec_c7_pruned_adjacency_witness :
    (adjGet [[], [0, 1], [], []] 1).length = 0 ∨
      2 ≤ (adjGet [[], [0, 1], [], []] 1).length :=
  (@spec_c7_pruned_adjacency exGraphC [[1], [1], [], []]
    [[], [0, 1], [], []] rfl).2 1

/-- C7 counterexample: on `exGraphC` the pruned top-side list of vertex 0
has length 1, refuting the claim that every neighbor list has length 0 or
at least 2 after pruning. -/
theorem spec_c7_cex :
    exGraphC.prunedAdj = .ok ([[1], [1], [], []], [[], [0, 1], [], []]) ∧
      ¬ ((adjGet [[1], [1], [], []] 0).length = 0 ∨
          2 ≤ (adjGet [[1], [1], [], []] 0).length) :=
  ⟨rfl, by decide⟩

/-- C10: a single-element sequence passes verification on any graph: its
length 1 is odd and the per-step edge loop checks nothing. -/
theorem spec_c10_verify_singleton (g : Graph) (v : Nat) :
    g.verify [v] = true := rfl

/-- C3: the verifier accepts exactly the odd-length sequences all of whose
steps are backed by a matching edge, with top = cycle[i-1], bottom =
cycle[i] at odd steps and bottom = cycle[i-1], top = cycle[i] at even
steps; no relation between the first and last element is required. -/
theorem spec_c3_verify_characterization (g : Graph) (cycle : List Nat) :
    g.verify cycle = true ↔
      cycle.length % 2 = 1 ∧ ∀ i, 1 ≤ i → i < cycle.length →
        ∃ e ∈ g.edges,
          (i % 2 = 1 → e.1 = cyGet cycle (i - 1) ∧ e.2 = cyGet cycle i) ∧
          (i % 2 = 0 → e.2 = cyGet cycle (i - 1) ∧ e.1 = cyGet cycle i) := by
  rw [verify_eq_true_iff]
  refine and_congr_right (fun hodd => ?_)
  have hlen : 1 ≤ cycle.length := by
    rcases Nat.eq_zero_or_pos cycle.length with h0 | h1
    · rw [h0] at hodd; simp at hodd
    · exact h1
  constructor
  · intro hall i h1 h2
    have hmem : mkEdge cycle i ∈ cycleEdges cycle := by
      rw [cycleEdges, List.mem_map]
      exact ⟨i, List.mem_range'_1.mpr ⟨h1, by omega⟩, rfl⟩
    refine ⟨mkEdge cycle i, hall _ hmem, ?_, ?_⟩
    · intro hpar
      rw [mkEdge, if_pos hpar]
      exact ⟨rfl, rfl⟩
    · intro hpar
      rw [mkEdge, if_neg (by omega)]
      exact ⟨rfl, rfl⟩
  · intro hall e he
    rw [cycleEdges, List.mem_map] at he
    obtain ⟨i, hi, rfl⟩ := he
    have hi2 := List.mem_range'_1.mp hi
    obtain ⟨e, hmem, hodd2, heven⟩ := hall i hi2.1 (by omega)
    rcases Nat.mod_two_eq_zero_or_one i with hpar | hpar
    · obtain ⟨ha, hb⟩ := heven hpar
      rw [mkEdge, if_neg (by omega)]
      rcases e with ⟨e1, e2⟩
      rw [← ha, ← hb]
      exact hmem
    · obtain ⟨ha, hb⟩ := hodd2 hpar
      rw [mkEdge, if_pos hpar]
      rcases e with ⟨e1, e2⟩
      rw [← ha, ← hb]
      exact hmem

/-- C2: the claim that generation succeeds for every n up to 32 is
contradicted by the code at n = 32: `edges_number as u32` truncates
`2^32` to 0 and the first `next_u32() % 0` panics, although the code's
own assertion message and documentation admit n = 32. This theorem
evaluates the embedded generator at the failing input. -/
theorem spec_c2_new_panics_at_32 (rng : Nat → Nat) :
    Graph.new rng 32 = .error () := rfl

/-- C5: solve_for returns none whenever diff is even or smaller than 5,
for every graph alike, without consulting the edge list. -/
theorem spec_c5_solve_for_invalid (g : Graph) (diff : Nat)
    (h : diff % 2 = 0 ∨ diff < 5) : g.solve_for diff = .ok none := by
  unfold Graph.solve_for
  rw [if_pos h]

/-- C5 witness: diff = 4 on the example graph. -/
theorem spec_c5_solve_for_invalid_witness : exGraphA.solve_for 4 = .ok none :=
  spec_c5_solve_for_invalid exGraphA 4 (Or.inl rfl)

lemma top_mem_sideUniverse {topA botA : List (List Nat)} {v : Nat}
    (h : v < topA.length) : GraphSide.top v ∈ sideUniverse topA botA := by
  rw [sideUniverse, Finset.mem_union]
  left
  rw [Finset.mem_image]
  exact ⟨v, Finset.mem_range.mpr h, rfl⟩

lemma bottom_mem_sideUniverse {topA botA : List (List Nat)} {v : Nat}
    (h : v < botA.length) : GraphSide.bottom v ∈ sideUniverse topA botA := by
  rw [sideUniverse, Finset.mem_union]
  right
  rw [Finset.mem_image]
  exact ⟨v, Finset.mem_range.mpr h, rfl⟩

lemma dfsPotential_insert_le (topA botA : List (List Nat))
    (visited : Finset GraphSide) (node : GraphSide) :
    dfsPotential topA botA (insert node visited) ≤ dfsPotential topA botA visited := by
  apply Finset.sum_le_sum_of_subset
  intro x hx
  simp only [Finset.mem_filter, Finset.mem_insert, not_or] at hx ⊢
  exact ⟨hx.1, hx.2.2⟩

lemma dfsPotential_insert_eq {topA botA : List (List Nat)}
    {visited : Finset GraphSide} {node : GraphSide}
    (hu : node ∈ sideUniverse topA botA) (hv : node ∉ visited) :
    dfsPotential topA botA visited =
      outdeg topA botA node + dfsPotential topA botA (insert node visited) := by
  unfold dfsPotential
  have hset : (sideUniverse topA botA).filter (fun x => x ∉ insert node visited) =
      ((sideUniverse topA botA).filter (fun x => x ∉ visited)).erase node := by
    ext x
    simp only [Finset.mem_filter, Finset.mem_erase, Finset.mem_insert, not_or]
    tauto
  rw [hset]
  exact (Finset.add_sum_erase _ _ (Finset.mem_filter.mpr ⟨hu, hv⟩)).symm

lemma cycleEdges_append {p : List Nat} (hp : p ≠ []) (b : Nat) :
    cycleEdges (p ++ [b]) = cycleEdges p ++ [mkEdge (p ++ [b]) p.length] := by
  have hpos : 0 < p.length := List.length_pos.mpr hp
  unfold cycleEdges
  rw [List.length_append]
  have h1 : p.length + [b].length - 1 = (p.length - 1) + 1 := by
    simp only [List.length_singleton]
    omega
  rw [h1, List.range'_1_concat, List.map_append]
  congr 1
  · apply List.map_congr_left
    intro i hi
    have hi2 := List.mem_range'_1.mp hi
    have hiub : i < p.length := by omega
    unfold mkEdge
    rw [cyGet_append_of_lt hiub, cyGet_append_of_lt (by omega : i - 1 < p.length)]
  · have h2 : 1 + (p.length - 1) = p.length := by omega
    rw [h2]
    rfl

lemma mkEdge_append_odd {p : List Nat} {b v : Nat}
    (hp : p ≠ []) (hlast : cyGet p (p.length - 1) = v) (hodd : p.length % 2 = 1) :
    mkEdge (p ++ [b]) p.length = (v, b) := by
  have hpos : 0 < p.length := List.length_pos.mpr hp
  unfold mkEdge
  rw [if_pos hodd, cyGet_append_length p b [], cyGet_append_of_lt (by omega), hlast]

lemma mkEdge_append_even {p : List Nat} {t v : Nat}
    (hp : p ≠ []) (hlast : cyGet p (p.length - 1) = v) (heven : p.length % 2 = 0) :
    mkEdge (p ++ [t]) p.length = (t, v) := by
  have hpos : 0 < p.length := List.length_pos.mpr hp
  unfold mkEdge
  rw [if_neg (by omega), cyGet_append_length p t [], cyGet_append_of_lt (by omega), hlast]

lemma entryOk_expand_top {g : Graph} {target maxDepth : Nat}
    {topA botA : List (List Nat)} {v b : Nat} {path : List Nat}
    (hsub : subEdges g topA botA)
    (hent : entryOk g target maxDepth (GraphSide.top v, path))
    (hdepth : path.length < maxDepth) (hb : b ∈ adjGet topA v) :
    entryOk g target maxDepth (GraphSide.bottom b, path ++ [b]) := by
  simp only [entryOk] at hent ⊢
  obtain ⟨hne, hhead, hedges, -, hlast, hpar⟩ := hent
  have hpos : 0 < path.length := List.length_pos.mpr hne
  refine ⟨by simp, ?_, ?_, ?_, ?_, ?_⟩
  · rw [cyGet_append_of_lt hpos]
    exact hhead
  · rw [cycleEdges_append hne b]
    intro e he
    rcases List.mem_append.mp he with h1 | h2
    · exact hedges e h1
    · rw [List.mem_singleton] at h2
      rw [h2, mkEdge_append_odd hne hlast hpar]
      exact hsub.1 v b hb
  · left
    rw [List.length_append]
    simp only [List.length_singleton]
    omega
  · rw [List.length_append]
    simp only [List.length_singleton]
    have : path.length + 1 - 1 = path.length := by omega
    rw [this, cyGet_append_length path b []]
  · rw [List.length_append]
    simp only [List.length_singleton]
    omega

lemma entryOk_expand_bottom {g : Graph} {target maxDepth : Nat}
    {topA botA : List (List Nat)} {v t : Nat} {path : List Nat}
    (hsub : subEdges g topA botA)
    (hent : entryOk g target maxDepth (GraphSide.bottom v, path))
    (hdepth : path.length < maxDepth) (ht : t ∈ adjGet botA v) :
    entryOk g target maxDepth (GraphSide.top t, path ++ [t]) := by
  simp only [entryOk] at hent ⊢
  obtain ⟨hne, hhead, hedges, -, hlast, hpar⟩ := hent
  have hpos : 0 < path.length := List.length_pos.mpr hne
  refine ⟨by simp, ?_, ?_, ?_, ?_, ?_⟩
  · rw [cyGet_append_of_lt hpos]
    exact hhead
  · rw [cycleEdges_append hne t]
    intro e he
    rcases List.mem_append.mp he with h1 | h2
    · exact hedges e h1
    · rw [List.mem_singleton] at h2
      rw [h2, mkEdge_append_even hne hlast hpar]
      exact hsub.2 v t ht
  · left
    rw [List.length_append]
    simp only [List.length_singleton]
    omega
  · rw [List.length_append]
    simp only [List.length_singleton]
    have : path.length + 1 - 1 = path.length := by omega
    rw [this, cyGet_append_length path t []]
  · rw [List.length_append]
    simp only [List.length_singleton]
    omega

lemma entryOk_closed {g : Graph} {target maxDepth : Nat} {path : List Nat}
    (hent : entryOk g target maxDepth (GraphSide.top target, path))
    (hlen : path.length > 3) :
    path.length % 2 = 1 ∧ 5 ≤ path.length ∧ path.length ≤ maxDepth ∧
      path.head? = some target ∧ path.getLast? = some target ∧
      ∀ e ∈ cycleEdges path, e ∈ g.edges := by
  simp only [entryOk] at hent
  obtain ⟨hne, hhead, hedges, hbound, hlast, hpar⟩ := hent
  have hbound2 : path.length ≤ maxDepth := by
    rcases hbound with h | h
    · exact h
    · rw [h] at hlen
      simp at hlen
  refine ⟨hpar, by omega, hbound2, ?_, ?_, hedges⟩
  · rw [head?_eq_cyGet hne, hhead]
  · rw [getLast?_eq_cyGet hne, hlast]

lemma dfsLoop_accept {σ : Type} {topA botA : List (List Nat)}
    {maxDepth target : Nat} {handler : σ → List Nat → Bool × σ} :
    ∀ {fuel : Nat} {stack : List (GraphSide × List Nat)}
      {visited : Finset GraphSide} {s : σ} {p : List Nat} {s' : σ},
      dfsLoop topA botA maxDepth target handler fuel stack visited s =
        .ok (some p, s') →
      ∃ s0, handler s0 p = (true, s') := by
  intro fuel
  induction fuel with
  | zero =>
    intro stack visited s p s' h
    simp only [dfsLoop] at h
    exact Except.noConfusion h
  | succ fuel ih =>
    intro stack visited s p s' h
    cases stack with
    | nil =>
      simp only [dfsLoop, Except.ok.injEq, Prod.mk.injEq] at h
      exact absurd h.1 (by simp)
    | cons entry rest =>
      rcases entry with ⟨node, path⟩
      simp only [dfsLoop] at h
      by_cases hexp : node ∉ visited ∧ path.length < maxDepth
      · rw [if_pos hexp] at h
        cases node with
        | top v =>
          cases hadj : adjGet? topA v with
          | none => simp only [hadj] at h; exact Except.noConfusion h
          | some nbrs =>
            simp only [hadj] at h
            exact ih h
        | bottom v =>
          cases hadj : adjGet? botA v with
          | none => simp only [hadj] at h; exact Except.noConfusion h
          | some nbrs =>
            simp only [hadj] at h
            exact ih h
      · rw [if_neg hexp] at h
        by_cases hclose : node = GraphSide.top target ∧ path.length > 3
        · rw [if_pos hclose] at h
          rcases hh : handler s path with ⟨b, s1⟩
          cases b with
          | true =>
            simp only [hh, Except.ok.injEq, Prod.mk.injEq] at h
            obtain ⟨hp2, hs2⟩ := h
            rw [Option.some.injEq] at hp2
            refine ⟨s, ?_⟩
            rw [← hp2, ← hs2]
            exact hh
          | false =>
            simp only [hh] at h
            exact ih h
        · rw [if_neg hclose] at h
          exact ih h

lemma entryOk_init (g : Graph) (target maxDepth : Nat) :
    entryOk g target maxDepth (GraphSide.top target, [target]) := by
  refine ⟨by simp, rfl, ?_, Or.inr rfl, rfl, rfl⟩
  intro e he
  rw [show cycleEdges [target] = [] from rfl] at he
  simp at he

lemma dfsLoop_sound {σ : Type} {g : Graph} {topA botA : List (List Nat)}
    {maxDepth target : Nat} {handler : σ → List Nat → Bool × σ}
    (hsub : subEdges g topA botA) :
    ∀ {fuel : Nat} {stack : List (GraphSide × List Nat)}
      {visited : Finset GraphSide} {s : σ} {p : List Nat} {s' : σ},
      (∀ ent ∈ stack, entryOk g target maxDepth ent) →
      dfsLoop topA botA maxDepth target handler fuel stack visited s =
        .ok (some p, s') →
      p.length % 2 = 1 ∧ 5 ≤ p.length ∧ p.length ≤ maxDepth ∧
        p.head? = some target ∧ p.getLast? = some target ∧
        ∀ e ∈ cycleEdges p, e ∈ g.edges := by
  intro fuel
  induction fuel with
  | zero =>
    intro stack visited s p s' hstack h
    simp only [dfsLoop] at h
    exact Except.noConfusion h
  | succ fuel ih =>
    intro stack visited s p s' hstack h
    cases stack with
    | nil =>
      simp only [dfsLoop, Except.ok.injEq, Prod.mk.injEq] at h
      exact absurd h.1 (by simp)
    | cons entry rest =>
      rcases entry with ⟨node, path⟩
      have hent := hstack (node, path) (List.mem_cons_self _ _)
      have hrest : ∀ ent ∈ rest, entryOk g target maxDepth ent :=
        fun ent he => hstack ent (List.mem_cons_of_mem _ he)
      simp only [dfsLoop] at h
      by_cases hexp : node ∉ visited ∧ path.length < maxDepth
      · rw [if_pos hexp] at h
        cases node with
        | top v =>
          cases hadj : adjGet? topA v with
          | none => simp only [hadj] at h; exact Except.noConfusion h
          | some nbrs =>
            simp only [hadj] at h
            refine ih ?_ h
            intro ent he
            rcases List.mem_append.mp he with h1 | h2
            · rw [List.mem_reverse, List.mem_map] at h1
              obtain ⟨b, hb, rfl⟩ := h1
              have hbmem : b ∈ adjGet topA v := by
                rw [(adjGet?_eq_some.mp hadj).2]
                exact hb
              exact entryOk_expand_top hsub hent hexp.2 hbmem
            · exact hrest ent h2
        | bottom v =>
          cases hadj : adjGet? botA v with
          | none => simp only [hadj] at h; exact Except.noConfusion h
          | some nbrs =>
            simp only [hadj] at h
            refine ih ?_ h
            intro ent he
            rcases List.mem_append.mp he with h1 | h2
            · rw [List.mem_reverse, List.mem_map] at h1
              obtain ⟨t, ht, rfl⟩ := h1
              have htmem : t ∈ adjGet botA v := by
                rw [(adjGet?_eq_some.mp hadj).2]
                exact ht
              exact entryOk_expand_bottom hsub hent hexp.2 htmem
            · exact hrest ent h2
      · rw [if_neg hexp] at h
        by_cases hclose : node = GraphSide.top target ∧ path.length > 3
        · rw [if_pos hclose] at h
          rcases hh : handler s path with ⟨bb, s1⟩
          cases bb with
          | true =>
            simp only [hh, Except.ok.injEq, Prod.mk.injEq] at h
            obtain ⟨hp2, hs2⟩ := h
            rw [Option.some.injEq] at hp2
            rw [← hp2]
            have hent2 : entryOk g target maxDepth (GraphSide.top target, path) := by
              rw [← hclose.1]
              exact hent
            exact entryOk_closed hent2 hclose.2
          | false =>
            simp only [hh] at h
            exact ih hrest h
        · rw [if_neg hclose] at h
          exact ih hrest h

lemma dfsLoop_log {σ : Type} {g : Graph} {topA botA : List (List Nat)}
    {maxDepth target : Nat} {handler : σ → List Nat → Bool × σ}
    (hsub : subEdges g topA botA) :
    ∀ {fuel : Nat} {stack : List (GraphSide × List Nat)}
      {visited : Finset GraphSide} {s : σ} {log : List (List Nat)}
      {r : Option (List Nat)} {s' : σ} {log' : List (List Nat)},
      (∀ ent ∈ stack, entryOk g target maxDepth ent) →
      (∀ q ∈ log, goodPath maxDepth q) →
      dfsLoop topA botA maxDepth target (logWrap handler) fuel stack visited
        (s, log) = .ok (r, (s', log')) →
      ∀ q ∈ log', goodPath maxDepth q := by
  intro fuel
  induction fuel with
  | zero =>
    intro stack visited s log r s' log' hstack hlog h
    simp only [dfsLoop] at h
    exact Except.noConfusion h
  | succ fuel ih =>
    intro stack visited s log r s' log' hstack hlog h
    cases stack with
    | nil =>
      simp only [dfsLoop, Except.ok.injEq, Prod.mk.injEq] at h
      rw [← h.2.2]
      exact hlog
    | cons entry rest =>
      rcases entry with ⟨node, path⟩
      have hent := hstack (node, path) (List.mem_cons_self _ _)
      have hrest : ∀ ent ∈ rest, entryOk g target maxDepth ent :=
        fun ent he => hstack ent (List.mem_cons_of_mem _ he)
      simp only [dfsLoop] at h
      by_cases hexp : node ∉ visited ∧ path.length < maxDepth
      · rw [if_pos hexp] at h
        cases node with
        | top v =>
          cases hadj : adjGet? topA v with
          | none => simp only [hadj] at h; exact Except.noConfusion h
          | some nbrs =>
            simp only [hadj] at h
            refine ih ?_ hlog h
            intro ent he
            rcases List.mem_append.mp he with h1 | h2
            · rw [List.mem_reverse, List.mem_map] at h1
              obtain ⟨b, hb, rfl⟩ := h1
              have hbmem : b ∈ adjGet topA v := by
                rw [(adjGet?_eq_some.mp hadj).2]
                exact hb
              exact entryOk_expand_top hsub hent hexp.2 hbmem
            · exact hrest ent h2
        | bottom v =>
          cases hadj : adjGet? botA v with
          | none => simp only [hadj] at h; exact Except.noConfusion h
          | some nbrs =>
            simp only [hadj] at h
            refine ih ?_ hlog h
            intro ent he
            rcases List.mem_append.mp he with h1 | h2
            · rw [List.mem_reverse, List.mem_map] at h1
              obtain ⟨t, ht, rfl⟩ := h1
              have htmem : t ∈ adjGet botA v := by
                rw [(adjGet?_eq_some.mp hadj).2]
                exact ht
              exact entryOk_expand_bottom hsub hent hexp.2 htmem
            · exact hrest ent h2
      · rw [if_neg hexp] at h
        by_cases hclose : node = GraphSide.top target ∧ path.length > 3
        · rw [if_pos hclose] at h
          have hent2 : entryOk g target maxDepth (GraphSide.top target, path) := by
            rw [← hclose.1]
            exact hent
          have hgood : goodPath maxDepth path := by
            obtain ⟨h1, h2, h3, h4, h5, -⟩ := entryOk_closed hent2 hclose.2
            exact ⟨h1, h2, h3, target, h4, h5⟩
          have hlog2 : ∀ q ∈ log ++ [path], goodPath maxDepth q := by
            intro q hq
            rcases List.mem_append.mp hq with hq1 | hq2
            · exact hlog q hq1
            · rw [List.mem_singleton] at hq2
              rw [hq2]
              exact hgood
          rcases hh : handler s path with ⟨bb, s1⟩
          cases bb with
          | true =>
            simp only [logWrap, hh, Except.ok.injEq, Prod.mk.injEq] at h
            rw [← h.2.2]
            exact hlog2
          | false =>
            simp only [logWrap, hh] at h
            exact ih hrest hlog2 h
        · rw [if_neg hclose] at h
          exact ih hrest hlog h

lemma solveLoop_sound {σ : Type} {g : Graph} {topA botA : List (List Nat)}
    {maxDepth : Nat} {handler : σ → List Nat → Bool × σ}
    (hsub : subEdges g topA botA) :
    ∀ {targets : List Nat} {s : σ} {p : List Nat} {s' : σ},
      solveLoop topA botA maxDepth handler targets s = .ok (some p, s') →
      p.length % 2 = 1 ∧ 5 ≤ p.length ∧ p.length ≤ maxDepth ∧
        (∃ v, p.head? = some v ∧ p.getLast? = some v) ∧
        ∀ e ∈ cycleEdges p, e ∈ g.edges := by
  intro targets
  induction targets with
  | nil =>
    intro s p s' h
    simp only [solveLoop, Except.ok.injEq, Prod.mk.injEq] at h
    exact absurd h.1 (by simp)
  | cons t rest ih =>
    intro s p s' h
    simp only [solveLoop] at h
    cases hadj : adjGet? topA t with
    | none => simp only [hadj] at h; exact Except.noConfusion h
    | some l =>
      simp only [hadj] at h
      by_cases hemp : l.isEmpty = true
      · rw [if_pos hemp] at h
        exact ih h
      · rw [if_neg hemp] at h
        cases hdfs : dfsLoop topA botA maxDepth t handler
            (dfsPotential topA botA ∅ + 2) [(GraphSide.top t, [t])] ∅ s with
        | error e => simp only [hdfs] at h; exact Except.noConfusion h
        | ok r0 =>
          rcases r0 with ⟨ro, s1⟩
          cases ro with
          | none =>
            simp only [hdfs] at h
            exact ih h
          | some q =>
            simp only [hdfs, Except.ok.injEq, Prod.mk.injEq] at h
            obtain ⟨hq, -⟩ := h
            rw [Option.some.injEq] at hq
            have hinit : ∀ ent ∈ [(GraphSide.top t, [t])],
                entryOk g t maxDepth ent := by
              intro ent he
              rw [List.mem_singleton] at he
              rw [he]
              exact entryOk_init g t maxDepth
            obtain ⟨h1, h2, h3, h4, h5, h6⟩ := dfsLoop_sound hsub hinit hdfs
            rw [← hq]
            exact ⟨h1, h2, h3, ⟨t, h4, h5⟩, h6⟩

lemma solveLoop_accept {σ : Type} {topA botA : List (List Nat)}
    {maxDepth : Nat} {handler : σ → List Nat → Bool × σ} :
    ∀ {targets : List Nat} {s : σ} {p : List Nat} {s' : σ},
      solveLoop topA botA maxDepth handler targets s = .ok (some p, s') →
      ∃ s0, handler s0 p = (true, s') := by
  intro targets
  induction targets with
  | nil =>
    intro s p s' h
    simp only [solveLoop, Except.ok.injEq, Prod.mk.injEq] at h
    exact absurd h.1 (by simp)
  | cons t rest ih =>
    intro s p s' h
    simp only [solveLoop] at h
    cases hadj : adjGet? topA t with
    | none => simp only [hadj] at h; exact Except.noConfusion h
    | some l =>
      simp only [hadj] at h
      by_cases hemp : l.isEmpty = true
      · rw [if_pos hemp] at h
        exact ih h
      · rw [if_neg hemp] at h
        cases hdfs : dfsLoop topA botA maxDepth t handler
            (dfsPotential topA botA ∅ + 2) [(GraphSide.top t, [t])] ∅ s with
        | error e => simp only [hdfs] at h; exact Except.noConfusion h
        | ok r0 =>
          rcases r0 with ⟨ro, s1⟩
          cases ro with
          | none =>
            simp only [hdfs] at h
            exact ih h
          | some q =>
            simp only [hdfs, Except.ok.injEq, Prod.mk.injEq] at h
            obtain ⟨hq, hs⟩ := h
            rw [Option.some.injEq] at hq
            obtain ⟨s0, hacc⟩ := dfsLoop_accept hdfs
            refine ⟨s0, ?_⟩
            rw [← hq, ← hs]
            exact hacc

lemma solveLoop_log {σ : Type} {g : Graph} {topA botA : List (List Nat)}
    {maxDepth : Nat} {handler : σ → List Nat → Bool × σ}
    (hsub : subEdges g topA botA) :
    ∀ {targets : List Nat} {s : σ} {log : List (List Nat)}
      {r : Option (List Nat)} {s' : σ} {log' : List (List Nat)},
      (∀ q ∈ log, goodPath maxDepth q) →
      solveLoop topA botA maxDepth (logWrap handler) targets (s, log) =
        .ok (r, (s', log')) →
      ∀ q ∈ log', goodPath maxDepth q := by
  intro targets
  induction targets with
  | nil =>
    intro s log r s' log' hlog h
    simp only [solveLoop, Except.ok.injEq, Prod.mk.injEq] at h
    rw [← h.2.2]
    exact hlog
  | cons t rest ih =>
    intro s log r s' log' hlog h
    simp only [solveLoop] at h
    cases hadj : adjGet? topA t with
    | none => simp only [hadj] at h; exact Except.noConfusion h
    | some l =>
      simp only [hadj] at h
      by_cases hemp : l.isEmpty = true
      · rw [if_pos hemp] at h
        exact ih hlog h
      · rw [if_neg hemp] at h
        cases hdfs : dfsLoop topA botA maxDepth t (logWrap handler)
            (dfsPotential topA botA ∅ + 2) [(GraphSide.top t, [t])] ∅ (s, log) with
        | error e => simp only [hdfs] at h; exact Except.noConfusion h
        | ok r0 =>
          rcases r0 with ⟨ro, s1pair⟩
          rcases s1pair with ⟨s1, log1⟩
          have hinit : ∀ ent ∈ [(GraphSide.top t, [t])],
              entryOk g t maxDepth ent := by
            intro ent he
            rw [List.mem_singleton] at he
            rw [he]
            exact entryOk_init g t maxDepth
          have hmid := dfsLoop_log hsub hinit hlog hdfs
          cases ro with
          | none =>
            simp only [hdfs] at h
            exact ih hmid h
          | some q =>
            simp only [hdfs, Except.ok.injEq, Prod.mk.injEq] at h
            rw [← h.2.2]
            exact hmid

lemma solve_sound {σ : Type} {g : Graph} {maxDepth : Nat}
    {handler : σ → List Nat → Bool × σ} {s0 : σ} {p : List Nat} {s' : σ}
    (h : g.solve maxDepth handler s0 = .ok (some p, s')) :
    p.length % 2 = 1 ∧ 5 ≤ p.length ∧ p.length ≤ maxDepth ∧
      (∃ v, p.head? = some v ∧ p.getLast? = some v) ∧
      ∀ e ∈ cycleEdges p, e ∈ g.edges := by
  unfold Graph.solve at h
  cases hpr : g.prunedAdj with
  | error e => simp only [hpr] at h; exact Except.noConfusion h
  | ok r =>
    rcases r with ⟨topA, botA⟩
    simp only [hpr] at h
    exact solveLoop_sound (prunedAdj_subset hpr) h

lemma solve_accept {σ : Type} {g : Graph} {maxDepth : Nat}
    {handler : σ → List Nat → Bool × σ} {s0 : σ} {p : List Nat} {s' : σ}
    (h : g.solve maxDepth handler s0 = .ok (some p, s')) :
    ∃ s1, handler s1 p = (true, s') := by
  unfold Graph.solve at h
  cases hpr : g.prunedAdj with
  | error e => simp only [hpr] at h; exact Except.noConfusion h
  | ok r =>
    rcases r with ⟨topA, botA⟩
    simp only [hpr] at h
    exact solveLoop_accept h

/-- C1: any cycle returned by solve satisfies verify on the same graph,
for every graph, depth bound and (stateful) handler. -/
theorem spec_c1_solve_sound {σ : Type} (g : Graph) (maxDepth : Nat)
    (handler : σ → List Nat → Bool × σ) (s0 : σ) (p : List Nat) (s' : σ)
    (h : g.solve maxDepth handler s0 = .ok (some p, s')) :
    g.verify p = true := by
  obtain ⟨h1, -, -, -, h5⟩ := solve_sound h
  rw [verify_eq_true_iff]
  exact ⟨h1, h5⟩

/-- C1 witness: on the example graph an accept-all handler makes solve
return the cycle [0, 1, 1, 0, 0], which therefore passes verify. -/
theorem spec_c1_solve_sound_witness :
    exGraphA.verify [0, 1, 1, 0, 0] = true :=
  spec_c1_solve_sound exGraphA 5 (fun (_ : Unit) _ => (true, ())) ()
    [0, 1, 1, 0, 0] () rfl

/-- C4: every path the solver offers to the handler (observed through the
recording wrapper), and any returned path, has odd sequence length, length
at least 5 and at most the depth bound, and begins and ends with the same
top vertex. -/
theorem spec_c4_handler_paths {σ : Type} (g : Graph) (maxDepth : Nat)
    (handler : σ → List Nat → Bool × σ) (s0 : σ) (r : Option (List Nat))
    (s' : σ) (log' : List (List Nat))
    (h : g.solve maxDepth (logWrap handler) (s0, []) = .ok (r, (s', log'))) :
    (∀ q ∈ log', goodPath maxDepth q) ∧
      ∀ p, r = some p → goodPath maxDepth p := by
  constructor
  · unfold Graph.solve at h
    cases hpr : g.prunedAdj with
    | error e => simp only [hpr] at h; exact Except.noConfusion h
    | ok rr =>
      rcases rr with ⟨topA, botA⟩
      simp only [hpr] at h
      exact solveLoop_log (prunedAdj_subset hpr) (by simp) h
  · intro p hp
    rw [hp] at h
    obtain ⟨h1, h2, h3, h4, -⟩ := solve_sound h
    exact ⟨h1, h2, h3, h4⟩

/-- C4 witness: the recorded run on the example graph logs exactly the
returned cycle, whose length is at least 5 by the theorem. -/
theorem spec_c4_handler_paths_witness : 5 ≤ ([0, 1, 1, 0, 0] : List Nat).length :=
  ((spec_c4_handler_paths exGraphA 5 (fun (_ : Unit) _ => (true, ())) ()
      (some [0, 1, 1, 0, 0]) () [[0, 1, 1, 0, 0]] rfl).1
    [0, 1, 1, 0, 0] (by simp)).2.1

/-- C6: for odd diff at least 5, solve_for g diff is exactly solve with
the handler testing for sequence length diff, and any cycle it returns has
length diff. -/
theorem spec_c6_solve_for_refines (g : Graph) (diff : Nat)
    (hodd : diff % 2 = 1) (hge : 5 ≤ diff) :
    g.solve_for diff = Except.map Prod.fst
        (g.solve diff (fun (_ : Unit) cycle => (cycle.length == diff, ())) ()) ∧
      ∀ p, g.solve_for diff = .ok (some p) → p.length = diff := by
  have hguard : ¬ (diff % 2 = 0 ∨ diff < 5) := by omega
  constructor
  · unfold Graph.solve_for
    rw [if_neg hguard]
  · intro p hp
    unfold Graph.solve_for at hp
    rw [if_neg hguard] at hp
    cases hX : g.solve diff (fun (_ : Unit) cycle => (cycle.length == diff, ())) () with
    | error e =>
      rw [hX] at hp
      simp only [Except.map] at hp
      exact Except.noConfusion hp
    | ok r0 =>
      rcases r0 with ⟨ro, s1⟩
      rw [hX] at hp
      simp only [Except.map] at hp
      rw [Except.ok.injEq] at hp
      rw [hp] at hX
      obtain ⟨s0, hacc⟩ := solve_accept hX
      have hfst := congrArg Prod.fst hacc
      simpa using hfst

/-- C6 witness: solve_for 5 on the example graph returns the cycle
[0, 1, 1, 0, 0], whose length the theorem equates with 5. -/
theorem spec_c6_solve_for_refines_witness : ([0, 1, 1, 0, 0] : List Nat).length = 5 :=
  (spec_c6_solve_for_refines exGraphA 5 rfl (Nat.le_refl 5)).2 [0, 1, 1, 0, 0] rfl

lemma dfsLoop_ok_ex {σ : Type} {topA botA : List (List Nat)}
    {maxDepth target : Nat} {handler : σ → List Nat → Bool × σ}
    (hadjb : (∀ j x, x ∈ adjGet topA j → x < botA.length) ∧
      (∀ j x, x ∈ adjGet botA j → x < topA.length)) :
    ∀ {fuel : Nat} {stack : List (GraphSide × List Nat)}
      {visited : Finset GraphSide} {s : σ},
      (∀ ent ∈ stack, nodeBounded topA botA ent.1) →
      dfsPotential topA botA visited + stack.length < fuel →
      ∃ r, dfsLoop topA botA maxDepth target handler fuel stack visited s = .ok r := by
  intro fuel
  induction fuel with
  | zero =>
    intro stack visited s hstack hpot
    omega
  | succ fuel ih =>
    intro stack visited s hstack hpot
    cases stack with
    | nil => exact ⟨(none, s), rfl⟩
    | cons entry rest =>
      rcases entry with ⟨node, path⟩
      have hrest : ∀ ent ∈ rest, nodeBounded topA botA ent.1 :=
        fun ent he => hstack ent (List.mem_cons_of_mem _ he)
      simp only [List.length_cons] at hpot
      simp only [dfsLoop]
      by_cases hexp : node ∉ visited ∧ path.length < maxDepth
      · rw [if_pos hexp]
        cases node with
        | top v =>
          have hv : v < topA.length := hstack _ (List.mem_cons_self _ _)
          simp only [adjGet?_of_lt hv]
          apply ih
          · intro ent he
            rcases List.mem_append.mp he with h1 | h2
            · rw [List.mem_reverse, List.mem_map] at h1
              obtain ⟨b, hb, rfl⟩ := h1
              exact hadjb.1 v b hb
            · exact hrest ent h2
          · have hins := @dfsPotential_insert_eq topA botA visited
              (GraphSide.top v) (top_mem_sideUniverse hv) hexp.1
            simp only [outdeg] at hins
            rw [List.length_append, List.length_reverse, List.length_map]
            omega
        | bottom v =>
          have hv : v < botA.length := hstack _ (List.mem_cons_self _ _)
          simp only [adjGet?_of_lt hv]
          apply ih
          · intro ent he
            rcases List.mem_append.mp he with h1 | h2
            · rw [List.mem_reverse, List.mem_map] at h1
              obtain ⟨t, ht, rfl⟩ := h1
              exact hadjb.2 v t ht
            · exact hrest ent h2
          · have hins := @dfsPotential_insert_eq topA botA visited
              (GraphSide.bottom v) (bottom_mem_sideUniverse hv) hexp.1
            simp only [outdeg] at hins
            rw [List.length_append, List.length_reverse, List.length_map]
            omega
      · rw [if_neg hexp]
        by_cases hclose : node = GraphSide.top target ∧ path.length > 3
        · rw [if_pos hclose]
          rcases hh : handler s path with ⟨bb, s1⟩
          cases bb with
          | true => exact ⟨(some path, s1), by simp only [hh]⟩
          | false =>
            simp only [hh]
            apply ih hrest
            have := dfsPotential_insert_le topA botA visited node
            omega
        · rw [if_neg hclose]
          apply ih hrest
          have := dfsPotential_insert_le topA botA visited node
          omega

lemma solveLoop_ok_ex {σ : Type} {topA botA : List (List Nat)}
    {maxDepth : Nat} {handler : σ → List Nat → Bool × σ}
    (hadjb : (∀ j x, x ∈ adjGet topA j → x < botA.length) ∧
      (∀ j x, x ∈ adjGet botA j → x < topA.length)) :
    ∀ {targets : List Nat} {s : σ},
      (∀ t ∈ targets, t < topA.length) →
      ∃ r, solveLoop topA botA maxDepth handler targets s = .ok r := by
  intro targets
  induction targets with
  | nil =>
    intro s _
    exact ⟨(none, s), rfl⟩
  | cons t rest ih =>
    intro s hT
    have ht := hT t (List.mem_cons_self _ _)
    simp only [solveLoop, adjGet?_of_lt ht]
    by_cases hemp : (adjGet topA t).isEmpty = true
    · rw [if_pos hemp]
      exact ih (fun x hx => hT x (List.mem_cons_of_mem _ hx))
    · rw [if_neg hemp]
      obtain ⟨r0, hr0⟩ := @dfsLoop_ok_ex _ topA botA maxDepth t handler hadjb
        (dfsPotential topA botA ∅ + 2) [(GraphSide.top t, [t])] ∅ s
        (fun ent he => by
          rw [List.mem_singleton] at he
          rw [he]
          exact ht)
        (by simp only [List.length_singleton]; omega)
      rcases r0 with ⟨ro, s1⟩
      cases ro with
      | some q => exact ⟨(some q, s1), by simp only [hr0]⟩
      | none =>
        obtain ⟨r1, hr1⟩ := ih (s := s1) (fun x hx => hT x (List.mem_cons_of_mem _ hx))
        refine ⟨r1, ?_⟩
        simp only [hr0]
        exact hr1

lemma new_ok_spec {rng : Nat → Nat} {n : Nat} {g : Graph}
    (h : Graph.new rng n = .ok g) :
    g.edges.length = 2 ^ n ∧ g.WF := by
  unfold Graph.new at h
  by_cases h32 : n ≤ 32
  · rw [if_pos h32] at h
    simp only [] at h
    by_cases hmod : 2 ^ n % 2 ^ 32 = 0
    · rw [if_pos hmod] at h
      exact Except.noConfusion h
    · rw [if_neg hmod] at h
      rw [Except.ok.injEq] at h
      rw [← h]
      have hlen : ((List.range (2 ^ n)).map (fun i =>
          ((rng (2 * i) % 2 ^ 32) % (2 ^ n % 2 ^ 32),
            (rng (2 * i + 1) % 2 ^ 32) % (2 ^ n % 2 ^ 32)))).length = 2 ^ n := by
        rw [List.length_map, List.length_range]
      refine ⟨hlen, ?_⟩
      intro e he
      simp only [List.mem_map] at he
      obtain ⟨i, -, rfl⟩ := he
      have hpos : 0 < 2 ^ n % 2 ^ 32 := Nat.pos_of_ne_zero hmod
      have hle : 2 ^ n % 2 ^ 32 ≤ 2 ^ n := Nat.mod_le _ _
      have h1 := Nat.mod_lt (rng (2 * i) % 2 ^ 32) hpos
      have h2 := Nat.mod_lt (rng (2 * i + 1) % 2 ^ 32) hpos
      rw [hlen]
      exact ⟨by omega, by omega⟩
  · rw [if_neg h32] at h
    exact Except.noConfusion h

lemma prunedAdj_ok_ex {g : Graph} (hwf : g.WF) : ∃ r, g.prunedAdj = .ok r := by
  obtain ⟨⟨top0, bot0⟩, hb⟩ := builtAdj_ok_ex hwf
  obtain ⟨l0t, l0b, hmt, hmb⟩ := builtAdj_spec hb
  obtain ⟨⟨top1, bot1⟩, hp1⟩ := @pruneLoop_ok_ex (List.range g.edges.length)
    top0 bot0
    (fun i hi => by rw [l0t]; exact List.mem_range.mp hi)
    (fun j x hx => by rw [l0b]; exact (hwf _ ((hmt j x).mp hx)).2)
  obtain ⟨hs1p, hs1s⟩ := pruneLoop_subset hp1
  obtain ⟨l1t, l1b⟩ := pruneLoop_lengths hp1
  obtain ⟨⟨bot2, top2⟩, hp2⟩ := @pruneLoop_ok_ex (List.range g.edges.length)
    bot1 top1
    (fun i hi => by rw [l1b, l0b]; exact List.mem_range.mp hi)
    (fun j x hx => by
      rw [l1t, l0t]
      exact (hwf _ ((hmb j x).mp (hs1s j x hx))).1)
  refine ⟨(top2, bot2), ?_⟩
  unfold Graph.prunedAdj
  simp only [hb, hp1, hp2]

lemma solve_ok_ex {σ : Type} {g : Graph} (hwf : g.WF) (maxDepth : Nat)
    (handler : σ → List Nat → Bool × σ) (s0 : σ) :
    ∃ r, g.solve maxDepth handler s0 = .ok r := by
  obtain ⟨⟨topA, botA⟩, hpr⟩ := prunedAdj_ok_ex hwf
  obtain ⟨lt2, lb2⟩ := prunedAdj_lengths hpr
  obtain ⟨hsubT, hsubB⟩ := prunedAdj_subset hpr
  obtain ⟨r, hr⟩ := @solveLoop_ok_ex _ topA botA maxDepth handler
    ⟨fun j x hx => by rw [lb2]; exact (hwf _ (hsubT j x hx)).2,
      fun j x hx => by rw [lt2]; exact (hwf _ (hsubB j x hx)).1⟩
    (List.range g.edges.length) s0
    (fun t ht => by rw [lt2]; exact List.mem_range.mp ht)
  refine ⟨r, ?_⟩
  unfold Graph.solve
  simp only [hpr]
  exact hr

/-- C9: on every graph produced by the generator, solve terminates without
a panic (all adjacency indexing stays in bounds because every edge
endpoint is below the edge count, and the DFS worklist is exhausted), and
a returned cycle always comes from an accepting handler invocation, so
solve returns none when no invocation ever accepted. -/
theorem spec_c9_solve_total {σ : Type} (rng : Nat → Nat) (n : Nat) (g : Graph)
    (hgen : Graph.new rng n = .ok g) (maxDepth : Nat)
    (handler : σ → List Nat → Bool × σ) (s0 : σ) :
    exceptOk (g.solve maxDepth handler s0) = true ∧
      ∀ p s', g.solve maxDepth handler s0 = .ok (some p, s') →
        ∃ s1, handler s1 p = (true, s') := by
  obtain ⟨-, hwf⟩ := new_ok_spec hgen
  constructor
  · obtain ⟨r, hr⟩ := solve_ok_ex hwf maxDepth handler s0
    rw [hr]
    rfl
  · intro p s' h
    exact solve_accept h

/-- C9 witness: the generator at n = 1 with the zero stream yields the
two-edge graph, on which solve runs to completion without a panic. -/
theorem spec_c9_solve_total_witness :
    exceptOk ((⟨[(0, 0), (0, 0)]⟩ : Graph).solve 5 acceptAll ()) = true :=
  (spec_c9_solve_total (fun _ => 0) 1 ⟨[(0, 0), (0, 0)]⟩ rfl 5 acceptAll ()).1

/-- C8 (amended): pruning never discards a cycle in which every vertex has
two distinct partners among the cycle's edges (in particular any
vertex-simple odd cycle of length at least 5): all such a cycle's edges
survive both pruning passes, so none of its vertices is touched by
pruning. The original claim, quantified over arbitrary odd cycles, fails
for degenerate closed walks that leave and re-enter a vertex through the
same neighbor (see the counterexample). -/
theorem spec_c8_pruning_preserves_cycles {g : Graph} {top2 bot2 : List (List Nat)}
    (hpr : g.prunedAdj = .ok (top2, bot2)) (p : List Nat)
    (hodd : p.length % 2 = 1) (hlen : 5 ≤ p.length)
    (hclosed : p.head? = p.getLast?)
    (hedges : ∀ e ∈ cycleEdges p, e ∈ g.edges)
    (htwoTop : ∀ t b, (t, b) ∈ cycleEdges p →
      ∃ b1 b2, (t, b1) ∈ cycleEdges p ∧ (t, b2) ∈ cycleEdges p ∧ b1 ≠ b2)
    (htwoBot : ∀ t b, (t, b) ∈ cycleEdges p →
      ∃ t1 t2, (t1, b) ∈ cycleEdges p ∧ (t2, b) ∈ cycleEdges p ∧ t1 ≠ t2) :
    ∀ e ∈ cycleEdges p, e.2 ∈ adjGet top2 e.1 ∧ e.1 ∈ adjGet bot2 e.2 := by
  obtain ⟨top0, bot0, top1, bot1, hb, hp1, hp2⟩ := prunedAdj_split hpr
  obtain ⟨-, -, hmt, hmb⟩ := builtAdj_spec hb
  have hpres0 : ∀ e ∈ cycleEdges p, e.2 ∈ adjGet top0 e.1 ∧ e.1 ∈ adjGet bot0 e.2 := by
    intro e he
    rcases e with ⟨t, b⟩
    exact ⟨(hmt t b).mpr (hedges _ he), (hmb b t).mpr (hedges _ he)⟩
  have hpres1 := pruneLoop_present hp1 htwoTop hpres0
  set S2 := (cycleEdges p).map (fun e => (e.2, e.1)) with hS2
  have hmemS2 : ∀ b t, (b, t) ∈ S2 ↔ (t, b) ∈ cycleEdges p := by
    intro b t
    rw [hS2, List.mem_map]
    constructor
    · rintro ⟨e, he, heq⟩
      rcases e with ⟨t', b'⟩
      simp only [Prod.mk.injEq] at heq
      rw [← heq.1, ← heq.2]
      exact he
    · intro hmem
      exact ⟨(t, b), hmem, rfl⟩
  have htwo2 : ∀ x y, (x, y) ∈ S2 → ∃ y1 y2, (x, y1) ∈ S2 ∧ (x, y2) ∈ S2 ∧ y1 ≠ y2 := by
    intro x y hxy
    rw [hmemS2 x y] at hxy
    obtain ⟨t1, t2, h1, h2, hne⟩ := htwoBot y x hxy
    exact ⟨t1, t2, (hmemS2 x t1).mpr h1, (hmemS2 x t2).mpr h2, hne⟩
  have hpres1' : ∀ e ∈ S2, e.2 ∈ adjGet bot1 e.1 ∧ e.1 ∈ adjGet top1 e.2 := by
    intro e he
    rcases e with ⟨b, t⟩
    rw [hmemS2] at he
    have hbt := hpres1 (t, b) he
    exact ⟨hbt.2, hbt.1⟩
  have hpres2 := pruneLoop_present hp2 htwo2 hpres1'
  intro e he
  rcases e with ⟨t, b⟩
  have hbt := hpres2 (b, t) ((hmemS2 b t).mpr he)
  exact ⟨hbt.2, hbt.1⟩

/-- C8 witness: on the example graph the vertex-simple 5-cycle
[0, 0, 1, 1, 0] survives pruning: its first edge (0, 0) is still listed
on both sides after both passes. -/
theorem spec_c8_pruning_preserves_cycles_witness :
    (0 : Nat) ∈ adjGet [[0, 1], [0, 1], [], []] 0 ∧
      (0 : Nat) ∈ adjGet [[0, 1], [0, 1], [], []] 0 :=
  @spec_c8_pruning_preserves_cycles exGraphA [[0, 1], [0, 1], [], []]
    [[0, 1], [0, 1], [], []]
    rfl [0, 0, 1, 1, 0] rfl (by decide) rfl (by decide)
    (by
      intro t b hmem
      rw [show cycleEdges [0, 0, 1, 1, 0] = [(0, 0), (1, 0), (1, 1), (0, 1)]
        from rfl] at hmem
      simp only [List.mem_cons, List.not_mem_nil, or_false, Prod.mk.injEq] at hmem
      rcases hmem with ⟨rfl, rfl⟩ | ⟨rfl, rfl⟩ | ⟨rfl, rfl⟩ | ⟨rfl, rfl⟩ <;>
        exact ⟨0, 1, by decide, by decide, by decide⟩)
    (by
      intro t b hmem
      rw [show cycleEdges [0, 0, 1, 1, 0] = [(0, 0), (1, 0), (1, 1), (0, 1)]
        from rfl] at hmem
      simp only [List.mem_cons, List.not_mem_nil, or_false, Prod.mk.injEq] at hmem
      rcases hmem with ⟨rfl, rfl⟩ | ⟨rfl, rfl⟩ | ⟨rfl, rfl⟩ | ⟨rfl, rfl⟩ <;>
        exact ⟨0, 1, by decide, by decide, by decide⟩)
    (0, 0) (by decide)

/-- C8 counterexample: on `exGraphB` top vertex 0 is touched by pruning,
since its built neighbor list [0] has fewer than two entries and the
first pass clears it (all lists end up empty), yet [0, 0, 1, 0, 0] is an
odd closed sequence of length 5 through top vertex 0 that the verifier
accepts, refuting the claim that a pruned vertex lies on no odd cycle of
length at least 5 through itself. -/
theorem spec_c8_cex :
    exGraphB.builtAdj = .ok ([[0], [0]], [[0, 1], []]) ∧
      exGraphB.prunedAdj = .ok ([[], []], [[], []]) ∧
      exGraphB.verify [0, 0, 1, 0, 0] = true ∧
      ([0, 0, 1, 0, 0] : List Nat).head? = some 0 ∧
      ([0, 0, 1, 0, 0] : List Nat).getLast? = some 0 ∧
      ([0, 0, 1, 0, 0] : List Nat).length % 2 = 1 ∧
      5 ≤ ([0, 0, 1, 0, 0] : List Nat).length :=
  ⟨rfl, rfl, rfl, rfl, rfl, rfl, by decide⟩
